import Mathlib

/-!
Verification of the tokenizer + recursive-descent parser in
`src/compiler.cpp` (classes `Lexer` and `Parser`).

Source text is modelled as `List Char`; token lexemes and AST node values
are likewise `List Char`.  The C++ `std::string` tags for token types and
AST node types ("KEYWORD", "PROGRAM", ...) are kept as Lean `String`s.
The C character-class functions (`isspace`, `isalpha`, `isdigit`,
`isalnum`, `ispunct`) are embedded by their ASCII (default "C" locale)
definitions over the character code.
-/

namespace Compiler

/-- C `isspace` on ASCII: space, tab, newline, vertical tab, form feed,
carriage return. -/
def isSpaceC (c : Char) : Bool :=
  c.toNat = 32 || c.toNat = 9 || c.toNat = 10 || c.toNat = 11 ||
  c.toNat = 12 || c.toNat = 13

/-- C `isalpha` on ASCII. -/
def isAlphaC (c : Char) : Bool :=
  (97 ≤ c.toNat && c.toNat ≤ 122) || (65 ≤ c.toNat && c.toNat ≤ 90)

/-- C `isdigit` on ASCII. -/
def isDigitC (c : Char) : Bool :=
  48 ≤ c.toNat && c.toNat ≤ 57

/-- C `isalnum` on ASCII. -/
def isAlnumC (c : Char) : Bool := isAlphaC c || isDigitC c

/-- C `ispunct` on ASCII: printable, not alphanumeric, not space.
This is the classifier actually used by the lexer's fallback branch
(`ispunct(current) ? "PUNCTUATION" : "OPERATOR"`). -/
def isPunctC (c : Char) : Bool :=
  (33 ≤ c.toNat && c.toNat ≤ 47) || (58 ≤ c.toNat && c.toNat ≤ 64) ||
  (91 ≤ c.toNat && c.toNat ≤ 96) || (123 ≤ c.toNat && c.toNat ≤ 126)

/-- The character class greedily consumed inside an identifier lexeme:
`isalnum(input[position]) || input[position] == '_'`. -/
def isIdentChar (c : Char) : Bool := isAlnumC c || c = '_'

/-- The character class greedily consumed inside a number lexeme:
`isdigit(input[position]) || input[position] == '.'`. -/
def isNumChar (c : Char) : Bool := isDigitC c || c = '.'

/-- The keys of the `keywords` map in `Lexer::isKeyword`. -/
def keywords : List (List Char) :=
  ["int".data, "char".data, "float".data, "double".data, "void".data,
   "if".data, "else".data, "while".data, "for".data, "return".data,
   "printf".data]

/-- `Lexer::isKeyword`: membership test in the keyword map. -/
def isKeyword (w : List Char) : Bool := decide (w ∈ keywords)

/-- The `Token` struct: type tag, lexeme, line, column. -/
structure Tok where
  type : String
  value : List Char
  line : Nat
  col : Nat
  deriving Repr, DecidableEq

/-- `Lexer::tokenize`, scanning the remaining input `cs` at position
(`line`, `col`).  Returns the emitted tokens together with the number of
characters that were skipped as whitespace (the second component is pure
instrumentation: the code's only output is the token list).

Branches, in the order of the C++ code:
whitespace (newline bumps the line and resets the column, other
whitespace bumps the column); identifier/keyword maximal munch; number
maximal munch over digits and dots; single-character fallback classified
by `ispunct`. -/
def tokenizeAux : List Char → Nat → Nat → List Tok × Nat
  | [], _, _ => ([], 0)
  | c :: cs, line, col =>
    if isSpaceC c then
      let r := if c = '\n' then tokenizeAux cs (line + 1) 1
               else tokenizeAux cs line (col + 1)
      (r.1, r.2 + 1)
    else if isAlphaC c || c = '_' then
      let ident := c :: cs.takeWhile isIdentChar
      let rest := cs.dropWhile isIdentChar
      let ty := if isKeyword ident then "KEYWORD" else "IDENTIFIER"
      let r := tokenizeAux rest line (col + ident.length)
      (⟨ty, ident, line, col⟩ :: r.1, r.2)
    else if isDigitC c then
      let num := c :: cs.takeWhile isNumChar
      let rest := cs.dropWhile isNumChar
      let r := tokenizeAux rest line (col + num.length)
      (⟨"NUMBER", num, line, col⟩ :: r.1, r.2)
    else
      let ty := if isPunctC c then "PUNCTUATION" else "OPERATOR"
      let r := tokenizeAux cs line (col + 1)
      (⟨ty, [c], line, col⟩ :: r.1, r.2)
termination_by cs _ _ => cs.length
decreasing_by
  · simp
  · simp
  · exact Nat.lt_succ_of_le (List.dropWhile_sublist _).length_le
  · exact Nat.lt_succ_of_le (List.dropWhile_sublist _).length_le
  · simp

/-- `Lexer::tokenize` on a whole source string: position starts at
line 1, column 1. -/
def tokenize (source : List Char) : List Tok := (tokenizeAux source 1 1).1

/-- Number of input characters the lexer skipped as whitespace. -/
def wsSkipped (source : List Char) : Nat := (tokenizeAux source 1 1).2

/-- The `ASTNode` struct: type tag, value, children. -/
inductive Node where
  | mk (type : String) (value : List Char) (children : List Node)
  deriving Repr

/-- The `type` field of an `ASTNode`. -/
def Node.type : Node → String
  | .mk t _ _ => t

/-- The `value` field of an `ASTNode`. -/
def Node.value : Node → List Char
  | .mk _ v _ => v

/-- The `children` field of an `ASTNode`. -/
def Node.children : Node → List Node
  | .mk _ _ cs => cs

/-- Abnormal outcomes of the embedded parser: `oob` marks a token-array
read outside the bounds guard (unreachable if every read is guarded, the
safety claim); `fuel` marks exhaustion of the step budget (the C++ code
has no budget, so a result of `fuel` for every budget means the code
loops forever). -/
inductive PErr where
  | oob
  | fuel
  deriving Repr, DecidableEq

/-- One guarded token read, mirroring the C++ pattern
`current < tokens.size()` then `tokens[current]`: the read happens only
under the bounds guard (`ok none` is the guard-false case), and the
out-of-bounds branch of the option-returning index is mapped to the
distinguished `oob` error. -/
def peekG (ts : List Tok) (c : Nat) : Except PErr (Option Tok) :=
  if c < ts.length then
    match ts[c]? with
    | none => .error .oob
    | some t => .ok (some t)
  else .ok none

/-- The parameter-skipping loop of `Parser::parseDeclaration`:
`while (current < tokens.size() && tokens[current].value != ")")
current++;`.  Returns the cursor after the loop. -/
def skipParams (ts : List Tok) : Nat → Nat → Except PErr Nat
  | 0, _ => .error .fuel
  | fuel + 1, c => do
    let t? ← peekG ts c
    match t? with
    | none => .ok c
    | some t =>
      if t.value = [')'] then .ok c
      else skipParams ts fuel (c + 1)

/-- Modelled from the spec: the raw token span captured for a minimal
generic expression (`parseExpressionStatement` and the expression inside
`parseReturnStatement` are called but absent from the source).  The span
runs until a `;`, a closing brace, or the end of the token sequence. -/
def exprToks (ts : List Tok) (c : Nat) : List Tok :=
  (ts.drop c).takeWhile fun t => !(t.value = [';'] || t.value = ['\x7d'])

/-- Joining lexemes in order, separated by single spaces. -/
def joinLexemes : List (List Char) → List Char
  | [] => []
  | [v] => v
  | v :: vs => v ++ ' ' :: joinLexemes vs

/-- Modelled from the spec: `Parser::parseExpressionStatement` is called
but absent from the source; per the spec it captures the raw token span
as the statement's value (the trailing `;` is consumed by its caller
`parseStatement`, which is present in the source).  An empty span yields
no node. -/
def parseExpressionStatement (ts : List Tok) (c : Nat) : Option Node × Nat :=
  let sp := exprToks ts c
  if sp.isEmpty then (none, c)
  else (some (.mk "EXPRESSION_STATEMENT" (joinLexemes (sp.map Tok.value)) []),
        c + sp.length)

/-- The cursor after `if (current < tokens.size() &&
tokens[current].value == v) current++;`: consume one token when it is
present and its lexeme is `v`. -/
def consumeIf (ts : List Tok) (c : Nat) (v : List Char) : Nat :=
  match ts[c]? with
  | some t => if t.value = v then c + 1 else c
  | none => c

/-- Modelled from the spec: `Parser::parseReturnStatement` is called but
absent from the source; per the spec it consumes `return`, parses an
optional expression, expects a terminating `;` (consumed when present),
and attaches the expression as the single optional child. -/
def parseReturnStatement (ts : List Tok) (c : Nat) : Node × Nat :=
  let c1 := c + 1
  let sp := exprToks ts c1
  let c2 := c1 + sp.length
  let kids : List Node :=
    if sp.isEmpty then []
    else [.mk "EXPRESSION" (joinLexemes (sp.map Tok.value)) []]
  (.mk "RETURN_STATEMENT" [] kids, consumeIf ts c2 [';'])

mutual

/-- `Parser::parseBlock`: creates a `BLOCK` node, loops
`while (current < tokens.size() && tokens[current].value != "}")`
appending each non-null statement, then consumes the closing brace if
present.  The loop-exit read and the closing-brace consumption are
merged into the loop's stop case (they are consecutive guarded reads of
the same token in the C++). -/
def parseBlockLoop (ts : List Tok) : Nat → Nat → List Node → Except PErr (Node × Nat)
  | 0, _, _ => .error .fuel
  | fuel + 1, c, acc => do
    let t? ← peekG ts c
    match t? with
    | none => .ok (.mk "BLOCK" [] acc, c)
    | some t =>
      if t.value = ['\x7d'] then .ok (.mk "BLOCK" [] acc, c + 1)
      else
        match ← parseStatement ts fuel c with
        | (some stmt, c2) => parseBlockLoop ts fuel c2 (acc ++ [stmt])
        | (none, c2) => parseBlockLoop ts fuel c2 acc

/-- `Parser::parseStatement`: dispatches on the current token — `if`
keyword, `return` keyword, else expression statement followed by an
optional `;`. -/
def parseStatement (ts : List Tok) : Nat → Nat → Except PErr (Option Node × Nat)
  | 0, _ => .error .fuel
  | fuel + 1, c => do
    let t? ← peekG ts c
    match t? with
    | none => .ok (none, c)
    | some t =>
      if t.type = "KEYWORD" && t.value = "if".data then
        parseIfStatement ts fuel c
      else if t.type = "KEYWORD" && t.value = "return".data then
        .ok ((parseReturnStatement ts c).1, (parseReturnStatement ts c).2)
      else
        let r := parseExpressionStatement ts c
        let u? ← peekG ts r.2
        match u? with
        | some u =>
          if u.value = [';'] then .ok (r.1, r.2 + 1) else .ok (r.1, r.2)
        | none => .ok (r.1, r.2)

/-- Modelled from the spec: `Parser::parseIfStatement` is called but
absent from the source; per the spec it consumes `if`, a parenthesized
condition expression, a then-block, and an optional `else` block,
attaching children `[condition, thenBlock, optional elseBlock]`. -/
def parseIfStatement (ts : List Tok) : Nat → Nat → Except PErr (Option Node × Nat)
  | 0, _ => .error .fuel
  | fuel + 1, c =>
    let c1 := c + 1
    match ts[c1]? with
    | none => .ok (some (.mk "IF_STATEMENT" [] []), c1)
    | some t =>
      if t.value = ['('] then
        let sp := (ts.drop (c1 + 1)).takeWhile fun u => !(u.value = [')'])
        let c2 := c1 + 1 + sp.length
        let c3 := consumeIf ts c2 [')']
        let cond : Node := .mk "EXPRESSION" (joinLexemes (sp.map Tok.value)) []
        match ts[c3]? with
        | none => .ok (some (.mk "IF_STATEMENT" [] [cond]), c3)
        | some v =>
          if v.value = ['\x7b'] then
            match parseBlockLoop ts fuel (c3 + 1) [] with
            | .error e => .error e
            | .ok (thenB, c4) =>
              match ts[c4]? with
              | none => .ok (some (.mk "IF_STATEMENT" [] [cond, thenB]), c4)
              | some w =>
                if w.type = "KEYWORD" && w.value = "else".data then
                  match ts[c4 + 1]? with
                  | none => .ok (some (.mk "IF_STATEMENT" [] [cond, thenB]), c4 + 1)
                  | some x =>
                    if x.value = ['\x7b'] then
                      match parseBlockLoop ts fuel (c4 + 2) [] with
                      | .error e => .error e
                      | .ok (elseB, c5) =>
                        .ok (some (.mk "IF_STATEMENT" [] [cond, thenB, elseB]), c5)
                    else .ok (some (.mk "IF_STATEMENT" [] [cond, thenB]), c4 + 1)
                else .ok (some (.mk "IF_STATEMENT" [] [cond, thenB]), c4)
          else .ok (some (.mk "IF_STATEMENT" [] [cond]), c3)
      else .ok (some (.mk "IF_STATEMENT" [] []), c1)

end

/-- `Parser::parseDeclaration`: expects `KEYWORD` then `IDENTIFIER`; on a
following `(` builds a `FUNCTION_DECLARATION` (skipping parameters,
consuming `)`, and on `{` parsing the body block); otherwise yields no
node, leaving every token consumed so far consumed. -/
def parseDeclaration (ts : List Tok) (fuel : Nat) (c : Nat) :
    Except PErr (Option Node × Nat) := do
  let t? ← peekG ts c
  match t? with
  | none => .ok (none, c)
  | some t =>
    if t.type = "KEYWORD" then
      let c1 := c + 1
      let n? ← peekG ts c1
      match n? with
      | none => .ok (none, c1)
      | some n =>
        if n.type = "IDENTIFIER" then
          let name := n.value
          let c2 := c1 + 1
          let p? ← peekG ts c2
          match p? with
          | none => .ok (none, c2)
          | some p =>
            if p.value = ['('] then
              let c4 ← skipParams ts fuel (c2 + 1)
              let q? ← peekG ts c4
              let c5 := match q? with
                        | some q => if q.value = [')'] then c4 + 1 else c4
                        | none => c4
              let b? ← peekG ts c5
              match b? with
              | none => .ok (some (.mk "FUNCTION_DECLARATION" name []), c5)
              | some b =>
                if b.value = ['\x7b'] then
                  match ← parseBlockLoop ts fuel (c5 + 1) [] with
                  | (blk, c6) =>
                    .ok (some (.mk "FUNCTION_DECLARATION" name [blk]), c6)
                else .ok (some (.mk "FUNCTION_DECLARATION" name []), c5)
            else .ok (none, c2)
        else .ok (none, c1)
    else .ok (none, c)

/-- The `while (current < tokens.size())` loop of `Parser::parse`, with
the `PROGRAM` children accumulated so far. -/
def parseLoop (ts : List Tok) : Nat → Nat → List Node → Except PErr (List Node)
  | 0, _, _ => .error .fuel
  | fuel + 1, c, acc =>
    if c < ts.length then
      match parseDeclaration ts fuel c with
      | .error e => .error e
      | .ok (some n, c2) => parseLoop ts fuel c2 (acc ++ [n])
      | .ok (none, c2) => parseLoop ts fuel c2 acc
    else .ok acc

/-- `Parser::parse`: runs the top-level loop from cursor 0 and wraps the
collected declarations in a `PROGRAM` root. -/
def parse (ts : List Tok) (fuel : Nat) : Except PErr Node :=
  match parseLoop ts fuel 0 [] with
  | .error e => .error e
  | .ok kids => .ok (.mk "PROGRAM" [] kids)

/-- The top-level parser loop makes no progress from cursor `c`: every
step budget is exhausted, i.e. the C++ loop (which has no budget) never
terminates from this state. -/
def loopsForever (ts : List Tok) (c : Nat) : Prop :=
  ∀ fuel acc, parseLoop ts fuel c acc = Except.error PErr.fuel

/-- Shape invariant of an emitted token: the lexeme is nonempty, its
head determines the lexer branch that produced it, and the type tag is
the one that branch assigns. -/
def wfTok (t : Tok) : Bool :=
  match t.value with
  | [] => false
  | c :: cs =>
    if isAlphaC c || c = '_' then
      cs.all isIdentChar &&
        (t.type == if isKeyword (c :: cs) then "KEYWORD" else "IDENTIFIER")
    else if isDigitC c then
      cs.all isNumChar && (t.type == "NUMBER")
    else
      cs.isEmpty && !isSpaceC c &&
        (t.type == if isPunctC c then "PUNCTUATION" else "OPERATOR")

/-- The position-independent content of a token: its type tag and its
lexeme. -/
def kindLex (t : Tok) : String × List Char := (t.type, t.value)

/-- The (type, lexeme) pairs produced by the lexer, with positions
dropped: the same branch structure as `tokenizeAux`, used to state
properties that ignore line/column fields. -/
def tokensKL : List Char → List (String × List Char)
  | [] => []
  | c :: cs =>
    if isSpaceC c then tokensKL cs
    else if isAlphaC c || c = '_' then
      let ident := c :: cs.takeWhile isIdentChar
      (if isKeyword ident then "KEYWORD" else "IDENTIFIER", ident)
        :: tokensKL (cs.dropWhile isIdentChar)
    else if isDigitC c then
      let num := c :: cs.takeWhile isNumChar
      ("NUMBER", num) :: tokensKL (cs.dropWhile isNumChar)
    else
      (if isPunctC c then "PUNCTUATION" else "OPERATOR", [c]) :: tokensKL cs
termination_by cs => cs.length
decreasing_by
  · simp
  · exact Nat.lt_succ_of_le (List.dropWhile_sublist _).length_le
  · exact Nat.lt_succ_of_le (List.dropWhile_sublist _).length_le
  · simp

/-! ## Helper lemmas -/

theorem char_eq_iff_toNat (c d : Char) : c = d ↔ c.toNat = d.toNat := by
  constructor
  · intro h; rw [h]
  · intro h
    apply Char.ext
    have : c.val.toNat = d.val.toNat := h
    exact UInt32.ext this

theorem identChar_not_space (c : Char) (h : isIdentChar c = true) :
    isSpaceC c = false := by
  simp [isIdentChar, isAlnumC, isAlphaC, isDigitC, char_eq_iff_toNat] at h
  simp [isSpaceC]
  omega

theorem identStart_identChar (c : Char) (h : (isAlphaC c || c = '_') = true) :
    isIdentChar c = true := by
  simp [isIdentChar, isAlnumC, isAlphaC, char_eq_iff_toNat] at h ⊢
  omega

theorem numChar_not_space (c : Char) (h : isNumChar c = true) :
    isSpaceC c = false := by
  simp [isNumChar, isDigitC, char_eq_iff_toNat] at h
  simp [isSpaceC]
  omega

theorem digit_not_identStart (c : Char) (h : isDigitC c = true) :
    (isAlphaC c || c = '_') = false := by
  simp [isDigitC] at h
  simp [isAlphaC, char_eq_iff_toNat]
  omega

theorem len_tw_dw (p : Char → Bool) (l : List Char) :
    (l.takeWhile p).length + (l.dropWhile p).length = l.length := by
  rw [← List.length_append, List.takeWhile_append_dropWhile]

theorem tokenizeAux_coverage (cs : List Char) (line col : Nat) :
    ((tokenizeAux cs line col).1.map fun t => t.value.length).sum
      + (tokenizeAux cs line col).2 = cs.length := by
  induction cs, line, col using tokenizeAux.induct with
  | case1 line col => simp [tokenizeAux]
  | case2 c cs line col h1 ih1 ih2 =>
    rw [tokenizeAux]
    by_cases hn : c = '\n'
    · simp +decide [h1, hn] at ih1 ⊢
      omega
    · simp [h1, hn] at ih2 ⊢
      omega
  | case3 c cs line col h1 h2 ident rest ih =>
    rw [tokenizeAux]
    have hl := len_tw_dw isIdentChar cs
    unfold ident rest at ih
    simp [h1, h2] at ih ⊢
    omega
  | case4 c cs line col h1 h2 h3 num rest ih =>
    rw [tokenizeAux]
    have hl := len_tw_dw isNumChar cs
    unfold num rest at ih
    simp [h1, h2, h3] at ih ⊢
    omega
  | case5 c cs line col h1 h2 h3 ih =>
    rw [tokenizeAux]
    simp [h1, h2, h3] at ih ⊢
    omega

theorem tokenizeAux_wf (cs : List Char) (line col : Nat) :
    ∀ t ∈ (tokenizeAux cs line col).1, wfTok t = true := by
  induction cs, line, col using tokenizeAux.induct with
  | case1 line col => simp [tokenizeAux]
  | case2 c cs line col h1 ih1 ih2 =>
    rw [tokenizeAux]
    by_cases hn : c = '\n'
    · simp +decide [h1, hn] at ih1 ⊢
      exact ih1
    · simp [h1, hn] at ih2 ⊢
      exact ih2
  | case3 c cs line col h1 h2 ident rest ih =>
    rw [tokenizeAux]
    unfold ident rest at ih
    intro t ht
    simp [h1, h2] at ht
    rcases ht with h | h
    · subst h
      simp [wfTok, h2, List.all_takeWhile]
    · exact ih t h
  | case4 c cs line col h1 h2 h3 num rest ih =>
    rw [tokenizeAux]
    unfold num rest at ih
    intro t ht
    simp [h1, h2, h3] at ht
    rcases ht with h | h
    · subst h
      simp [wfTok, h2, h3, List.all_takeWhile]
    · exact ih t h
  | case5 c cs line col h1 h2 h3 ih =>
    rw [tokenizeAux]
    intro t ht
    simp [h1, h2, h3] at ht
    rcases ht with h | h
    · subst h
      simp [wfTok, h1, h2, h3]
    · exact ih t h

theorem wf_no_space (t : Tok) (h : wfTok t = true) :
    t.value ≠ [] ∧ ∀ c ∈ t.value, isSpaceC c = false := by
  unfold wfTok at h
  cases hv : t.value with
  | nil => rw [hv] at h; simp at h
  | cons c cs =>
    rw [hv] at h
    refine ⟨by simp, ?_⟩
    intro x hx
    by_cases hs : (isAlphaC c || c = '_') = true
    · simp [hs, Bool.and_eq_true] at h
      rcases List.mem_cons.mp hx with rfl | hx
      · exact identChar_not_space _ (identStart_identChar _ hs)
      · exact identChar_not_space _ (h.1 _ hx)
    · by_cases hd : isDigitC c = true
      · simp [hs, hd, Bool.and_eq_true] at h
        rcases List.mem_cons.mp hx with rfl | hx
        · exact numChar_not_space _ (by simp [isNumChar, hd])
        · exact numChar_not_space _ (h.1 _ hx)
      · simp [hs, hd, Bool.and_eq_true] at h
        rcases List.mem_cons.mp hx with rfl | hx
        · simpa using h.1.2
        · simp [h.1.1] at hx

theorem identStart_not_space (c : Char) (h : (isAlphaC c || c = '_') = true) :
    isSpaceC c = false :=
  identChar_not_space _ (identStart_identChar _ h)

theorem peekG_eq_ok (ts : List Tok) (c : Nat) : peekG ts c = .ok ts[c]? := by
  unfold peekG
  by_cases h : c < ts.length
  · simp [h, List.getElem?_eq_getElem h]
  · simp [h, List.getElem?_eq_none (Nat.le_of_not_lt h)]

theorem consumeIf_ge (ts : List Tok) (c : Nat) (v : List Char) :
    c ≤ consumeIf ts c v := by
  unfold consumeIf
  cases h : ts[c]? with
  | none => simp
  | some t => by_cases hv : t.value = v <;> simp [hv]

theorem parseExpressionStatement_c (ts : List Tok) (c : Nat) :
    c ≤ (parseExpressionStatement ts c).2 := by
  unfold parseExpressionStatement
  by_cases h : (exprToks ts c).isEmpty
  · simp [h]
  · simp [h]

theorem parseReturnStatement_c (ts : List Tok) (c : Nat) :
    c + 1 ≤ (parseReturnStatement ts c).2 := by
  have h := consumeIf_ge ts (c + 1 + (exprToks ts (c + 1)).length) [';']
  unfold parseReturnStatement
  dsimp only
  omega

theorem skipParams_mono (ts : List Tok) :
    ∀ fuel c c', skipParams ts fuel c = .ok c' → c ≤ c' := by
  intro fuel
  induction fuel with
  | zero => intro c c' h; simp [skipParams] at h
  | succ k ih =>
    intro c c' h
    rw [skipParams, peekG_eq_ok] at h
    cases hx : ts[c]? with
    | none => rw [hx] at h; simp [bind, Except.bind] at h; omega
    | some t =>
      rw [hx] at h
      by_cases hv : t.value = [')']
      · simp [bind, Except.bind, hv] at h; omega
      · simp [bind, Except.bind, hv] at h
        exact le_trans (Nat.le_succ c) (ih _ _ h)

theorem parser_mono (ts : List Tok) :
    ∀ fuel,
      (∀ c acc b c', parseBlockLoop ts fuel c acc = .ok (b, c') → c ≤ c')
      ∧ (∀ c r c', parseStatement ts fuel c = .ok (r, c') → c ≤ c')
      ∧ (∀ c r c', parseIfStatement ts fuel c = .ok (r, c') → c ≤ c') := by
  intro fuel
  induction fuel with
  | zero =>
    refine ⟨?_, ?_, ?_⟩
    · intro c acc b c' h; simp [parseBlockLoop] at h
    · intro c r c' h; simp [parseStatement] at h
    · intro c r c' h; simp [parseIfStatement] at h
  | succ k ih =>
    obtain ⟨ihB, ihS, ihI⟩ := ih
    refine ⟨?_, ?_, ?_⟩
    · intro c acc b c' h
      rw [parseBlockLoop, peekG_eq_ok] at h
      cases hx : ts[c]? with
      | none => rw [hx] at h; simp [bind, Except.bind] at h; omega
      | some t =>
        rw [hx] at h
        by_cases hv : t.value = ['\x7d']
        · simp [bind, Except.bind, hv] at h; omega
        · simp [bind, Except.bind, hv] at h
          cases hs : parseStatement ts k c with
          | error e => rw [hs] at h; simp at h
          | ok rc =>
            rw [hs] at h
            obtain ⟨r, c2⟩ := rc
            have h1 := ihS c r c2 hs
            cases r with
            | some stmt =>
              simp at h
              have h2 := ihB c2 (acc ++ [stmt]) b c' h
              omega
            | none =>
              simp at h
              have h2 := ihB c2 acc b c' h
              omega
    · intro c r c' h
      rw [parseStatement, peekG_eq_ok] at h
      cases hx : ts[c]? with
      | none => rw [hx] at h; simp [bind, Except.bind] at h; omega
      | some t =>
        rw [hx] at h
        by_cases hif : (t.type = "KEYWORD" && t.value = "if".data) = true
        · simp [bind, Except.bind, hif] at h
          exact ihI c r c' h
        · by_cases hret : (t.type = "KEYWORD" && t.value = "return".data) = true
          · simp [bind, Except.bind, hif, hret] at h
            have hm := parseReturnStatement_c ts c
            obtain ⟨h1, h2⟩ := h
            omega
          · have hm := parseExpressionStatement_c ts c
            rcases hps : parseExpressionStatement ts c with ⟨r0, c0⟩
            rw [hps] at hm
            simp only [] at hm
            simp [bind, Except.bind, hif, hret, peekG_eq_ok, hps] at h
            cases hy : ts[c0]? with
            | none => rw [hy] at h; simp at h; omega
            | some u =>
              rw [hy] at h
              by_cases hu : u.value = [';']
              · simp [hu] at h; omega
              · simp [hu] at h; omega
    · intro c r c' h
      rw [parseIfStatement] at h
      cases hx : ts[c + 1]? with
      | none => rw [hx] at h; simp at h; omega
      | some t =>
        rw [hx] at h
        by_cases hv : t.value = ['(']
        · simp only [hv, decide_True, if_true] at h
          set c3 := consumeIf ts
              (c + 1 + 1 +
                ((ts.drop (c + 1 + 1)).takeWhile fun u => !(u.value = [')'])).length)
              [')'] with hc3def
          have hc3 : c + 2 ≤ c3 := le_trans (by omega) (consumeIf_ge ts _ [')'])
          cases hz : ts[c3]? with
          | none => rw [hz] at h; simp at h; omega
          | some v =>
            rw [hz] at h
            by_cases hbr : v.value = ['\x7b']
            · simp only [hbr, decide_True, if_true] at h
              cases hb : parseBlockLoop ts k (c3 + 1) [] with
              | error e => rw [hb] at h; simp at h
              | ok bc =>
                rw [hb] at h
                obtain ⟨thenB, c4⟩ := bc
                dsimp only at h
                have hc4 : c3 + 1 ≤ c4 := ihB _ _ _ _ hb
                cases hw : ts[c4]? with
                | none => rw [hw] at h; simp at h; omega
                | some w =>
                  rw [hw] at h
                  by_cases hel :
                      (decide (w.type = "KEYWORD")
                        && decide (w.value = ['e','l','s','e'])) = true
                  · simp only [hel, if_true] at h
                    cases hx2 : ts[c4 + 1]? with
                    | none => rw [hx2] at h; simp at h; omega
                    | some x =>
                      rw [hx2] at h
                      by_cases hx3 : x.value = ['\x7b']
                      · simp only [hx3, decide_True, if_true] at h
                        cases hb2 : parseBlockLoop ts k (c4 + 2) [] with
                        | error e => rw [hb2] at h; simp at h
                        | ok bc2 =>
                          rw [hb2] at h
                          obtain ⟨elseB, c5⟩ := bc2
                          dsimp only at h
                          have hc5 : c4 + 2 ≤ c5 := ihB _ _ _ _ hb2
                          simp at h
                          omega
                      · simp [hx3] at h; omega
                  · simp [hel] at h; omega
            · simp [hbr] at h; omega
        · simp [hv] at h; omega

theorem parseDeclaration_nk (ts : List Tok) (fuel c : Nat) (t : Tok)
    (hc : ts[c]? = some t) (ht : ¬t.type = "KEYWORD") :
    parseDeclaration ts fuel c = .ok (none, c) := by
  unfold parseDeclaration
  rw [peekG_eq_ok, hc]
  simp [bind, Except.bind, ht]

theorem parseDeclaration_kw_end (ts : List Tok) (fuel c : Nat) (t : Tok)
    (hc : ts[c]? = some t) (ht : t.type = "KEYWORD") (hend : c + 1 = ts.length) :
    parseDeclaration ts fuel c = .ok (none, c + 1) := by
  unfold parseDeclaration
  rw [peekG_eq_ok, hc]
  have h2 : ts[c + 1]? = none := List.getElem?_eq_none (by omega)
  simp [bind, Except.bind, ht, peekG_eq_ok, h2]

theorem parseDeclaration_no_paren (ts : List Tok) (fuel c : Nat) (t n p : Tok)
    (hc : ts[c]? = some t) (ht : t.type = "KEYWORD")
    (hn : ts[c + 1]? = some n) (hnt : n.type = "IDENTIFIER")
    (hp : ts[c + 2]? = some p) (hpv : ¬p.value = ['(']) :
    parseDeclaration ts fuel c = .ok (none, c + 2) := by
  unfold parseDeclaration
  rw [peekG_eq_ok, hc]
  simp [bind, Except.bind, ht, peekG_eq_ok, hn, hnt, hp, hpv]

theorem parseLoop_stuck (ts : List Tok) (c : Nat) (t : Tok)
    (hc : ts[c]? = some t) (ht : ¬t.type = "KEYWORD") : loopsForever ts c := by
  intro fuel
  induction fuel with
  | zero => intro acc; rfl
  | succ k ih =>
    intro acc
    have hlt : c < ts.length := by
      rcases List.getElem?_eq_some.mp hc with ⟨h, _⟩; exact h
    rw [parseLoop]
    simp [hlt, parseDeclaration_nk ts k c t hc ht, ih]

theorem digit_not_space (c : Char) (h : isDigitC c = true) :
    isSpaceC c = false :=
  numChar_not_space _ (by simp [isNumChar, h])

theorem parseDeclaration_progress (ts : List Tok) (fuel c : Nat) (t : Tok)
    (hc : ts[c]? = some t) (ht : t.type = "KEYWORD") :
    ∀ r c', parseDeclaration ts fuel c = .ok (r, c') → c + 1 ≤ c' := by
  intro r c' h
  unfold parseDeclaration at h
  rw [peekG_eq_ok, hc] at h
  simp only [bind, Except.bind, ht, if_true, decide_True, peekG_eq_ok] at h
  cases hn : ts[c + 1]? with
  | none => rw [hn] at h; simp at h; omega
  | some n =>
    rw [hn] at h
    by_cases hnt : n.type = "IDENTIFIER"
    · simp only [hnt, decide_True, if_true] at h
      cases hp : ts[c + 1 + 1]? with
      | none => rw [hp] at h; simp at h; omega
      | some p =>
        rw [hp] at h
        by_cases hpv : p.value = ['(']
        · simp only [hpv, decide_True, if_true] at h
          cases hsk : skipParams ts fuel (c + 1 + 1 + 1) with
          | error e => rw [hsk] at h; simp [bind, Except.bind] at h
          | ok c4 =>
            rw [hsk] at h
            have hm4 : c + 3 ≤ c4 := skipParams_mono ts fuel _ _ hsk
            simp only [bind, Except.bind] at h
            cases hq : ts[c4]? with
            | none =>
              rw [hq] at h
              dsimp only at h
              cases hb : ts[c4]? with
              | none => rw [hb] at h; simp at h; omega
              | some b =>
                rw [hb] at h
                by_cases hbv : b.value = ['\x7b']
                · simp only [hbv, decide_True, if_true] at h
                  cases hbl : parseBlockLoop ts fuel (c4 + 1) [] with
                  | error e => rw [hbl] at h; simp at h
                  | ok bc =>
                    rw [hbl] at h
                    obtain ⟨blk, c6⟩ := bc
                    dsimp only at h
                    have hm6 : c4 + 1 ≤ c6 := (parser_mono ts fuel).1 _ _ _ _ hbl
                    simp at h
                    omega
                · simp [hbv] at h; omega
            | some q =>
              rw [hq] at h
              dsimp only at h
              by_cases hqv : q.value = [')']
              · simp only [hqv, decide_True, if_true] at h
                cases hb : ts[c4 + 1]? with
                | none => rw [hb] at h; simp at h; omega
                | some b =>
                  rw [hb] at h
                  by_cases hbv : b.value = ['\x7b']
                  · simp only [hbv, decide_True, if_true] at h
                    cases hbl : parseBlockLoop ts fuel (c4 + 1 + 1) [] with
                    | error e => rw [hbl] at h; simp at h
                    | ok bc =>
                      rw [hbl] at h
                      obtain ⟨blk, c6⟩ := bc
                      dsimp only at h
                      have hm6 : c4 + 1 + 1 ≤ c6 := (parser_mono ts fuel).1 _ _ _ _ hbl
                      simp at h
                      omega
                  · simp [hbv] at h; omega
              · simp only [hqv, decide_False, if_false] at h
                cases hb : ts[c4]? with
                | none => rw [hb] at h; simp at h; omega
                | some b =>
                  rw [hb] at h
                  by_cases hbv : b.value = ['\x7b']
                  · simp only [hbv, decide_True, if_true] at h
                    cases hbl : parseBlockLoop ts fuel (c4 + 1) [] with
                    | error e => rw [hbl] at h; simp at h
                    | ok bc =>
                      rw [hbl] at h
                      obtain ⟨blk, c6⟩ := bc
                      dsimp only at h
                      have hm6 : c4 + 1 ≤ c6 := (parser_mono ts fuel).1 _ _ _ _ hbl
                      simp at h
                      omega
                  · simp [hbv] at h; omega
        · simp [hpv] at h; omega
    · simp [hnt] at h; omega



theorem skipParams_no_oob (ts : List Tok) :
    ∀ fuel c, skipParams ts fuel c ≠ .error .oob := by
  intro fuel
  induction fuel with
  | zero => intro c h; simp [skipParams] at h
  | succ k ih =>
    intro c h
    rw [skipParams, peekG_eq_ok] at h
    cases hx : ts[c]? with
    | none => rw [hx] at h; simp [bind, Except.bind] at h
    | some t =>
      rw [hx] at h
      by_cases hv : t.value = [')']
      · simp [bind, Except.bind, hv] at h
      · simp [bind, Except.bind, hv] at h
        exact ih _ h

theorem parser_no_oob (ts : List Tok) :
    ∀ fuel,
      (∀ c acc, parseBlockLoop ts fuel c acc ≠ .error .oob)
      ∧ (∀ c, parseStatement ts fuel c ≠ .error .oob)
      ∧ (∀ c, parseIfStatement ts fuel c ≠ .error .oob) := by
  intro fuel
  induction fuel with
  | zero =>
    refine ⟨?_, ?_, ?_⟩
    · intro c acc h; simp [parseBlockLoop] at h
    · intro c h; simp [parseStatement] at h
    · intro c h; simp [parseIfStatement] at h
  | succ k ih =>
    obtain ⟨ihB, ihS, ihI⟩ := ih
    refine ⟨?_, ?_, ?_⟩
    · intro c acc h
      rw [parseBlockLoop, peekG_eq_ok] at h
      cases hx : ts[c]? with
      | none => rw [hx] at h; simp [bind, Except.bind] at h
      | some t =>
        rw [hx] at h
        by_cases hv : t.value = ['\x7d']
        · simp [bind, Except.bind, hv] at h
        · simp only [bind, Except.bind, hv, decide_False, if_false,
            Bool.false_eq_true] at h
          cases hs : parseStatement ts k c with
          | error e =>
            rw [hs] at h
            simp at h
            exact ihS c (h ▸ hs)
          | ok rc =>
            rw [hs] at h
            obtain ⟨r, c2⟩ := rc
            cases r with
            | some stmt =>
              dsimp only at h
              exact ihB c2 (acc ++ [stmt]) h
            | none =>
              dsimp only at h
              exact ihB c2 acc h
    · intro c h
      rw [parseStatement, peekG_eq_ok] at h
      cases hx : ts[c]? with
      | none => rw [hx] at h; simp [bind, Except.bind] at h
      | some t =>
        rw [hx] at h
        by_cases hif : (t.type = "KEYWORD" && t.value = "if".data) = true
        · simp [bind, Except.bind, hif] at h
          exact ihI c h
        · by_cases hret : (t.type = "KEYWORD" && t.value = "return".data) = true
          · simp [bind, Except.bind, hif, hret] at h
          · rcases hps : parseExpressionStatement ts c with ⟨r0, c0⟩
            simp [bind, Except.bind, hif, hret, peekG_eq_ok, hps] at h
            cases hy : ts[c0]? with
            | none => rw [hy] at h; simp at h
            | some u =>
              rw [hy] at h
              by_cases hu : u.value = [';']
              · simp [hu] at h
              · simp [hu] at h
    · intro c h
      rw [parseIfStatement] at h
      cases hx : ts[c + 1]? with
      | none => rw [hx] at h; simp at h
      | some t =>
        rw [hx] at h
        by_cases hv : t.value = ['(']
        · simp only [hv, decide_True, if_true] at h
          set c3 := consumeIf ts
              (c + 1 + 1 +
                ((ts.drop (c + 1 + 1)).takeWhile fun u => !(u.value = [')'])).length)
              [')'] with hc3def
          cases hz : ts[c3]? with
          | none => rw [hz] at h; simp at h
          | some v =>
            rw [hz] at h
            by_cases hbr : v.value = ['\x7b']
            · simp only [hbr, decide_True, if_true] at h
              cases hb : parseBlockLoop ts k (c3 + 1) [] with
              | error e =>
                rw [hb] at h
                simp at h
                exact ihB (c3 + 1) [] (h ▸ hb)
              | ok bc =>
                rw [hb] at h
                obtain ⟨thenB, c4⟩ := bc
                dsimp only at h
                cases hw : ts[c4]? with
                | none => rw [hw] at h; simp at h
                | some w =>
                  rw [hw] at h
                  by_cases hel :
                      (decide (w.type = "KEYWORD")
                        && decide (w.value = ['e','l','s','e'])) = true
                  · simp only [hel, if_true] at h
                    cases hx2 : ts[c4 + 1]? with
                    | none => rw [hx2] at h; simp at h
                    | some x =>
                      rw [hx2] at h
                      by_cases hx3 : x.value = ['\x7b']
                      · simp only [hx3, decide_True, if_true] at h
                        cases hb2 : parseBlockLoop ts k (c4 + 2) [] with
                        | error e =>
                          rw [hb2] at h
                          simp at h
                          exact ihB (c4 + 2) [] (h ▸ hb2)
                        | ok bc2 =>
                          rw [hb2] at h
                          obtain ⟨elseB, c5⟩ := bc2
                          dsimp only at h
                          simp at h
                      · simp [hx3] at h
                  · simp [hel] at h
            · simp [hbr] at h
        · simp [hv] at h

theorem parseDeclaration_no_oob (ts : List Tok) (fuel c : Nat) :
    parseDeclaration ts fuel c ≠ .error .oob := by
  intro h
  unfold parseDeclaration at h
  rw [peekG_eq_ok] at h
  cases hx : ts[c]? with
  | none => rw [hx] at h; simp [bind, Except.bind] at h
  | some t =>
    rw [hx] at h
    by_cases ht : t.type = "KEYWORD"
    · simp only [bind, Except.bind, ht, decide_True, if_true, peekG_eq_ok] at h
      cases hn : ts[c + 1]? with
      | none => rw [hn] at h; simp at h
      | some n =>
        rw [hn] at h
        by_cases hnt : n.type = "IDENTIFIER"
        · simp only [hnt, decide_True, if_true] at h
          cases hp : ts[c + 1 + 1]? with
          | none => rw [hp] at h; simp at h
          | some p =>
            rw [hp] at h
            by_cases hpv : p.value = ['(']
            · simp only [hpv, decide_True, if_true] at h
              cases hsk : skipParams ts fuel (c + 1 + 1 + 1) with
              | error e =>
                rw [hsk] at h
                simp [bind, Except.bind] at h
                exact skipParams_no_oob ts fuel _ (h ▸ hsk)
              | ok c4 =>
                rw [hsk] at h
                simp only [bind, Except.bind] at h
                cases hq : ts[c4]? with
                | none =>
                  rw [hq] at h
                  dsimp only at h
                  cases hb : ts[c4]? with
                  | none => rw [hb] at h; simp at h
                  | some b =>
                    rw [hb] at h
                    by_cases hbv : b.value = ['\x7b']
                    · simp only [hbv, decide_True, if_true] at h
                      cases hbl : parseBlockLoop ts fuel (c4 + 1) [] with
                      | error e =>
                        rw [hbl] at h
                        simp at h
                        exact (parser_no_oob ts fuel).1 _ _ (h ▸ hbl)
                      | ok bc =>
                        rw [hbl] at h
                        obtain ⟨blk, c6⟩ := bc
                        dsimp only at h
                        simp at h
                    · simp [hbv] at h
                | some q =>
                  rw [hq] at h
                  dsimp only at h
                  by_cases hqv : q.value = [')']
                  · simp only [hqv, decide_True, if_true] at h
                    cases hb : ts[c4 + 1]? with
                    | none => rw [hb] at h; simp at h
                    | some b =>
                      rw [hb] at h
                      by_cases hbv : b.value = ['\x7b']
                      · simp only [hbv, decide_True, if_true] at h
                        cases hbl : parseBlockLoop ts fuel (c4 + 1 + 1) [] with
                        | error e =>
                          rw [hbl] at h
                          simp at h
                          exact (parser_no_oob ts fuel).1 _ _ (h ▸ hbl)
                        | ok bc =>
                          rw [hbl] at h
                          obtain ⟨blk, c6⟩ := bc
                          dsimp only at h
                          simp at h
                      · simp [hbv] at h
                  · simp only [hqv, decide_False, if_false] at h
                    cases hb : ts[c4]? with
                    | none => rw [hb] at h; simp at h
                    | some b =>
                      rw [hb] at h
                      by_cases hbv : b.value = ['\x7b']
                      · simp only [hbv, decide_True, if_true] at h
                        cases hbl : parseBlockLoop ts fuel (c4 + 1) [] with
                        | error e =>
                          rw [hbl] at h
                          simp at h
                          exact (parser_no_oob ts fuel).1 _ _ (h ▸ hbl)
                        | ok bc =>
                          rw [hbl] at h
                          obtain ⟨blk, c6⟩ := bc
                          dsimp only at h
                          simp at h
                      · simp [hbv] at h
            · simp [hpv] at h
        · simp [hnt] at h
    · simp [bind, Except.bind, ht] at h

theorem parseLoop_no_oob (ts : List Tok) :
    ∀ fuel c acc, parseLoop ts fuel c acc ≠ .error .oob := by
  intro fuel
  induction fuel with
  | zero => intro c acc h; simp [parseLoop] at h
  | succ k ih =>
    intro c acc h
    rw [parseLoop] at h
    by_cases hlt : c < ts.length
    · simp only [hlt, if_true] at h
      cases hd : parseDeclaration ts k c with
      | error e =>
        rw [hd] at h
        simp at h
        exact parseDeclaration_no_oob ts k c (h ▸ hd)
      | ok rc =>
        rw [hd] at h
        obtain ⟨r, c2⟩ := rc
        cases r with
        | some n => dsimp only at h; exact ih c2 (acc ++ [n]) h
        | none => dsimp only at h; exact ih c2 acc h
    · simp [hlt] at h

theorem parse_no_oob (ts : List Tok) (fuel : Nat) :
    parse ts fuel ≠ .error .oob := by
  intro h
  unfold parse at h
  cases hl : parseLoop ts fuel 0 [] with
  | error e =>
    rw [hl] at h
    simp at h
    exact parseLoop_no_oob ts fuel 0 [] (h ▸ hl)
  | ok kids => rw [hl] at h; simp at h

theorem tokenizeAux_kindLex (cs : List Char) (line col : Nat) :
    (tokenizeAux cs line col).1.map kindLex = tokensKL cs := by
  induction cs, line, col using tokenizeAux.induct with
  | case1 l c => simp [tokenizeAux, tokensKL]
  | case2 c cs l co h1 ih1 ih2 =>
    rw [tokenizeAux, tokensKL]
    by_cases hn : c = '\n'
    · simp +decide [h1, hn, ih1]
    · simp [h1, hn, ih2]
  | case3 c cs l co h1 h2 ident rest ih =>
    rw [tokenizeAux, tokensKL]
    unfold ident rest at ih
    simp only [List.length_cons] at ih
    simp [h1, h2, ih, kindLex]
  | case4 c cs l co h1 h2 h3 num rest ih =>
    rw [tokenizeAux, tokensKL]
    unfold num rest at ih
    simp only [List.length_cons] at ih
    simp [h1, h2, h3, ih, kindLex]
  | case5 c cs l co h1 h2 h3 ih =>
    rw [tokenizeAux, tokensKL]
    simp [h1, h2, h3, ih, kindLex]

theorem tokensKL_space (cs : List Char) : tokensKL (' ' :: cs) = tokensKL cs := by
  rw [tokensKL]
  simp +decide

theorem munch_exact (p : Char → Bool) (w tail : List Char)
    (hw : ∀ a ∈ w, p a = true)
    (ht : tail = [] ∨ ∃ r, tail = ' ' :: r) (hsp : p ' ' = false) :
    (w ++ tail).takeWhile p = w ∧ (w ++ tail).dropWhile p = tail := by
  constructor
  · rw [List.takeWhile_append_of_pos hw]
    rcases ht with rfl | ⟨r, rfl⟩
    · simp
    · simp [List.takeWhile_cons, hsp]
  · rw [List.dropWhile_append_of_pos hw]
    rcases ht with rfl | ⟨r, rfl⟩
    · simp
    · simp [List.dropWhile_cons, hsp]



theorem tokensKL_wf_cons (t : Tok) (ht : wfTok t = true) (tail : List Char)
    (htail : tail = [] ∨ ∃ r, tail = ' ' :: r) :
    tokensKL (t.value ++ tail) = (t.type, t.value) :: tokensKL tail := by
  unfold wfTok at ht
  cases hv : t.value with
  | nil => rw [hv] at ht; simp at ht
  | cons c cs =>
    rw [hv] at ht
    by_cases hs : (isAlphaC c || c = '_') = true
    · simp only [hs, if_true] at ht
      rw [Bool.and_eq_true] at ht
      obtain ⟨hall, hty⟩ := ht
      have hallm : ∀ a ∈ cs, isIdentChar a = true := by
        intro a ha
        exact List.all_eq_true.mp hall a ha
      have hm := munch_exact isIdentChar cs tail hallm htail (by decide)
      have hns := identStart_not_space c hs
      rw [List.cons_append, tokensKL]
      simp only [hns, Bool.false_eq_true, if_false, hs, if_true, hm.1, hm.2]
      have hty2 : t.type = if isKeyword (c :: cs) then "KEYWORD" else "IDENTIFIER" := by
        rw [← beq_iff_eq]
        exact hty
      rw [hty2]
    · by_cases hd : isDigitC c = true
      · simp only [hs, hd, if_true, if_false, Bool.false_eq_true] at ht
        rw [Bool.and_eq_true] at ht
        obtain ⟨hall, hty⟩ := ht
        have hallm : ∀ a ∈ cs, isNumChar a = true := by
          intro a ha
          exact List.all_eq_true.mp hall a ha
        have hm := munch_exact isNumChar cs tail hallm htail (by decide)
        have hns := digit_not_space c hd
        rw [List.cons_append, tokensKL]
        simp only [hns, Bool.false_eq_true, if_false, hs, hd, if_true, hm.1, hm.2]
        have hty2 : t.type = "NUMBER" := by
          rw [← beq_iff_eq]
          exact hty
        rw [hty2]
      · simp only [hs, hd, if_false, Bool.false_eq_true] at ht
        rw [Bool.and_eq_true, Bool.and_eq_true] at ht
        obtain ⟨⟨hnil, hnsp⟩, hty⟩ := ht
        have hnil2 : cs = [] := by
          cases cs with
          | nil => rfl
          | cons a as => simp at hnil
        subst hnil2
        have hns : isSpaceC c = false := by
          cases hx : isSpaceC c with
          | false => rfl
          | true => rw [hx] at hnsp; simp at hnsp
        rw [List.cons_append, tokensKL]
        simp only [hns, Bool.false_eq_true, if_false, hs, hd]
        have hty2 : t.type = if isPunctC c then "PUNCTUATION" else "OPERATOR" := by
          rw [← beq_iff_eq]
          exact hty
        rw [hty2]
        simp

theorem retok : ∀ toks : List Tok, (∀ t ∈ toks, wfTok t = true) →
    tokensKL (joinLexemes (toks.map Tok.value)) = toks.map kindLex := by
  intro toks
  induction toks with
  | nil => intro _; simp [joinLexemes, tokensKL]
  | cons t rest ih =>
    intro hwf
    have hwt : wfTok t = true := hwf t (by simp)
    have hwr : ∀ u ∈ rest, wfTok u = true := fun u hu => hwf u (by simp [hu])
    cases rest with
    | nil =>
      have h := tokensKL_wf_cons t hwt [] (Or.inl rfl)
      simp only [List.append_nil] at h
      simp [joinLexemes, h, kindLex, tokensKL]
    | cons u us =>
      have hj : joinLexemes ((t :: u :: us).map Tok.value)
          = t.value ++ ' ' :: joinLexemes ((u :: us).map Tok.value) := by
        simp [joinLexemes]
      rw [hj, tokensKL_wf_cons t hwt _ (Or.inr ⟨_, rfl⟩), tokensKL_space,
        ih hwr]
      simp [kindLex]

/-! ## Claim theorems -/

/-- Claim C1 (code bug): the fallback branch classifies every consumed
character by C `ispunct`, so `'+'` (and likewise `- * / % = < > !`)
yields a `PUNCTUATION` token, not the `OPERATOR` the claim (and the
code's own `patterns` table) prescribes; `';'` is `PUNCTUATION` as
claimed, and only non-printable characters such as `'\x01'` ever become
`OPERATOR`. -/
theorem fallback_classified_by_ispunct :
    tokenize "+".data = [⟨"PUNCTUATION", ['+'], 1, 1⟩]
    ∧ tokenize "=".data = [⟨"PUNCTUATION", ['='], 1, 1⟩]
    ∧ tokenize ";".data = [⟨"PUNCTUATION", [';'], 1, 1⟩]
    ∧ tokenize ['\x01'] = [⟨"OPERATOR", ['\x01'], 1, 1⟩] := by
  refine ⟨?_, ?_, ?_, ?_⟩ <;> simp +decide [tokenize, tokenizeAux]

/-- Claim C3: the lexer is total, and every input character is accounted
for exactly once — the lexeme lengths of the emitted tokens plus the
characters skipped as whitespace sum to the input length; no token is
empty or contains a whitespace character. -/
theorem tokenize_total_coverage (source : List Char) :
    ((tokenize source).map fun t => t.value.length).sum + wsSkipped source
        = source.length
    ∧ ∀ t ∈ tokenize source, t.value ≠ [] ∧ ∀ c ∈ t.value, isSpaceC c = false := by
  refine ⟨tokenizeAux_coverage source 1 1, ?_⟩
  intro t ht
  exact wf_no_space t (tokenizeAux_wf source 1 1 t ht)

/-- Witness for C3 at the concrete input `"a b"`. -/
theorem tokenize_total_coverage_witness :
    ((tokenize "a b".data).map fun t => t.value.length).sum
        + wsSkipped "a b".data = 3
    ∧ (⟨"IDENTIFIER", ['a'], 1, 1⟩ : Tok).value ≠ [] := by
  constructor
  · have h := (tokenize_total_coverage "a b".data).1
    simpa using h
  · refine ((tokenize_total_coverage "a b".data).2 _ ?_).1
    simp +decide [tokenize, tokenizeAux]

/-- Claim C5: a lexeme scanned from an alphabetic-or-underscore start is
the maximal munch of identifier characters, and is tagged `KEYWORD`
exactly when the whole lexeme is a member of the fixed keyword set,
`IDENTIFIER` otherwise; `"int"` is one `KEYWORD` token and `"printf2"`
one `IDENTIFIER` token. -/
theorem keyword_exact_match :
    (∀ c cs line col, (isAlphaC c || c = '_') = true →
      (tokenizeAux (c :: cs) line col).1 =
        ⟨if (c :: cs.takeWhile isIdentChar) ∈ keywords then "KEYWORD"
          else "IDENTIFIER",
         c :: cs.takeWhile isIdentChar, line, col⟩
          :: (tokenizeAux (cs.dropWhile isIdentChar) line
                (col + (c :: cs.takeWhile isIdentChar).length)).1)
    ∧ tokenize "int".data = [⟨"KEYWORD", "int".data, 1, 1⟩]
    ∧ tokenize "printf2".data = [⟨"IDENTIFIER", "printf2".data, 1, 1⟩] := by
  refine ⟨?_, by simp +decide [tokenize, tokenizeAux],
          by simp +decide [tokenize, tokenizeAux]⟩
  intro c cs line col h
  have hns := identStart_not_space c h
  rw [tokenizeAux]
  simp [hns, h, isKeyword]

/-- Witness for C5: the general statement applied at the concrete input
`"printf2"` (= `'p'` followed by `"rintf2"`). -/
theorem keyword_exact_match_witness :
    (tokenizeAux ('p' :: "rintf2".data) 1 1).1 =
      ⟨if ('p' :: "rintf2".data.takeWhile isIdentChar) ∈ keywords then "KEYWORD"
        else "IDENTIFIER",
       'p' :: "rintf2".data.takeWhile isIdentChar, 1, 1⟩
        :: (tokenizeAux ("rintf2".data.dropWhile isIdentChar) 1
              (1 + ('p' :: "rintf2".data.takeWhile isIdentChar).length)).1 :=
  keyword_exact_match.1 'p' "rintf2".data 1 1 (by decide)

/-- Claim C6: scanning starts at line 1, column 1 (definition of
`tokenize`); a consumed newline increments the line and resets the
column to 1, any other consumed whitespace character advances the
column; a token records the position at which its first character was
consumed; and `"a\nb"` yields `a` at line 1 column 1 and `b` at line 2
column 1. -/
theorem position_tracking :
    (∀ cs line col, tokenizeAux ('\n' :: cs) line col
        = ((tokenizeAux cs (line + 1) 1).1, (tokenizeAux cs (line + 1) 1).2 + 1))
    ∧ (∀ c cs line col, isSpaceC c = true → ¬c = '\n' →
        tokenizeAux (c :: cs) line col
          = ((tokenizeAux cs line (col + 1)).1, (tokenizeAux cs line (col + 1)).2 + 1))
    ∧ (∀ c cs line col, isSpaceC c = false →
        ∃ t r, (tokenizeAux (c :: cs) line col).1 = t :: r
          ∧ t.line = line ∧ t.col = col)
    ∧ tokenize "a\nb".data
        = [⟨"IDENTIFIER", ['a'], 1, 1⟩, ⟨"IDENTIFIER", ['b'], 2, 1⟩] := by
  refine ⟨?_, ?_, ?_, by simp +decide [tokenize, tokenizeAux]⟩
  · intro cs line col
    rw [tokenizeAux]
    simp +decide
  · intro c cs line col h1 h2
    rw [tokenizeAux]
    simp [h1, h2]
  · intro c cs line col h1
    by_cases h2 : (isAlphaC c || c = '_') = true
    · refine ⟨⟨if isKeyword (c :: cs.takeWhile isIdentChar) then "KEYWORD"
                else "IDENTIFIER", c :: cs.takeWhile isIdentChar, line, col⟩,
              (tokenizeAux (cs.dropWhile isIdentChar) line
                (col + (c :: cs.takeWhile isIdentChar).length)).1, ?_, rfl, rfl⟩
      rw [tokenizeAux]
      simp [h1, h2]
    · by_cases h3 : isDigitC c = true
      · refine ⟨⟨"NUMBER", c :: cs.takeWhile isNumChar, line, col⟩,
                (tokenizeAux (cs.dropWhile isNumChar) line
                  (col + (c :: cs.takeWhile isNumChar).length)).1, ?_, rfl, rfl⟩
        rw [tokenizeAux]
        simp [h1, h2, h3]
      · refine ⟨⟨if isPunctC c then "PUNCTUATION" else "OPERATOR",
                  [c], line, col⟩,
                (tokenizeAux cs line (col + 1)).1, ?_, rfl, rfl⟩
        rw [tokenizeAux]
        simp [h1, h2, h3]

/-- Witness for C6: the whitespace rules applied at concrete inputs. -/
theorem position_tracking_witness :
    tokenizeAux ('\n' :: ['b']) 1 2
      = ((tokenizeAux ['b'] 2 1).1, (tokenizeAux ['b'] 2 1).2 + 1)
    ∧ tokenizeAux (' ' :: ['b']) 1 2
      = ((tokenizeAux ['b'] 1 3).1, (tokenizeAux ['b'] 1 3).2 + 1) :=
  ⟨position_tracking.1 ['b'] 1 2,
   position_tracking.2.1 ' ' ['b'] 1 2 (by decide) (by decide)⟩

/-- Claim C7: from a digit start the lexer munches digits and dots with
no validation of the number of dots, emitting a single `NUMBER` token;
`"3.14.5"` is one `NUMBER` token with that exact lexeme. -/
theorem number_lenient_munch :
    (∀ c cs line col, isDigitC c = true →
      (tokenizeAux (c :: cs) line col).1 =
        ⟨"NUMBER", c :: cs.takeWhile isNumChar, line, col⟩
          :: (tokenizeAux (cs.dropWhile isNumChar) line
                (col + (c :: cs.takeWhile isNumChar).length)).1)
    ∧ tokenize "3.14.5".data = [⟨"NUMBER", "3.14.5".data, 1, 1⟩] := by
  refine ⟨?_, by simp +decide [tokenize, tokenizeAux]⟩
  intro c cs line col h
  have hns := digit_not_space c h
  have hni := digit_not_identStart c h
  rw [tokenizeAux]
  simp [hns, hni, h]

/-- Witness for C7: the general statement applied at the concrete input
`"3.1"` (= `'3'` followed by `".1"`). -/
theorem number_lenient_munch_witness :
    (tokenizeAux ('3' :: ".1".data) 1 1).1 =
      ⟨"NUMBER", '3' :: ".1".data.takeWhile isNumChar, 1, 1⟩
        :: (tokenizeAux (".1".data.dropWhile isNumChar) 1
              (1 + ('3' :: ".1".data.takeWhile isNumChar).length)).1 :=
  number_lenient_munch.1 '3' ".1".data 1 1 (by decide)

/-- Claim C2 counterexample: on the token sequence of source `"x"` (a
single `IDENTIFIER` token, i.e. one beginning with a non-keyword token)
the first top-level iteration consumes no token at all, and the
top-level loop exhausts every step budget — `Parser::parse` never
returns a tree. -/
theorem parse_nonkeyword_diverges :
    parseDeclaration [⟨"IDENTIFIER", ['x'], 1, 1⟩] 9 0 = .ok (none, 0)
    ∧ loopsForever [⟨"IDENTIFIER", ['x'], 1, 1⟩] 0 := by
  constructor
  · rfl
  · exact parseLoop_stuck _ 0 ⟨"IDENTIFIER", ['x'], 1, 1⟩ rfl (by decide)

/-- Claim C2 (amended): parsing the unterminated block
`"int main() \x7b return 0"` does terminate with a `PROGRAM` tree, and
every top-level iteration beginning at a `KEYWORD` token consumes at
least one token; but an iteration beginning at any other token consumes
nothing, after which the top-level loop runs forever, so `parse` does
not terminate on every finite token sequence. -/
theorem parse_progress_on_keyword :
    parse (tokenize "int main() \x7b return 0".data) 100 =
      .ok (.mk "PROGRAM" []
        [.mk "FUNCTION_DECLARATION" "main".data
          [.mk "BLOCK" []
            [.mk "RETURN_STATEMENT" [] [.mk "EXPRESSION" ['0'] []]]]])
    ∧ (∀ ts fuel c t r c', ts[c]? = some t → t.type = "KEYWORD" →
        parseDeclaration ts fuel c = .ok (r, c') → c + 1 ≤ c')
    ∧ (∀ ts c t, ts[c]? = some t → ¬t.type = "KEYWORD" → loopsForever ts c) := by
  refine ⟨?_, ?_, ?_⟩
  · have h : tokenize "int main() \x7b return 0".data =
        [⟨"KEYWORD", "int".data, 1, 1⟩, ⟨"IDENTIFIER", "main".data, 1, 5⟩,
         ⟨"PUNCTUATION", ['('], 1, 9⟩, ⟨"PUNCTUATION", [')'], 1, 10⟩,
         ⟨"PUNCTUATION", ['\x7b'], 1, 12⟩, ⟨"KEYWORD", "return".data, 1, 14⟩,
         ⟨"NUMBER", ['0'], 1, 21⟩] := by
      simp +decide [tokenize, tokenizeAux]
    rw [h]
    rfl
  · intro ts fuel c t r c' hc ht h
    exact parseDeclaration_progress ts fuel c t hc ht r c' h
  · intro ts c t hc ht
    exact parseLoop_stuck ts c t hc ht

/-- Witness for C2: progress applied at the concrete sequence
`KEYWORD IDENTIFIER ;` (cursor 0 to 2), and divergence applied at
cursor 1 of `KEYWORD NUMBER`. -/
theorem parse_progress_on_keyword_witness :
    0 + 1 ≤ 2
    ∧ parseLoop [⟨"KEYWORD", "int".data, 1, 1⟩, ⟨"NUMBER", ['7'], 1, 5⟩] 7 1 []
        = .error PErr.fuel := by
  constructor
  · exact parse_progress_on_keyword.2.1
      [⟨"KEYWORD", "int".data, 1, 1⟩, ⟨"IDENTIFIER", ['x'], 1, 5⟩,
       ⟨"PUNCTUATION", [';'], 1, 6⟩]
      5 0 ⟨"KEYWORD", "int".data, 1, 1⟩ none 2 rfl rfl (by rfl)
  · exact parse_progress_on_keyword.2.2
      [⟨"KEYWORD", "int".data, 1, 1⟩, ⟨"NUMBER", ['7'], 1, 5⟩] 1
      ⟨"NUMBER", ['7'], 1, 5⟩ rfl (by decide) 7 []

/-- Claim C4: parsing the token sequence of
`"int main() \x7b return 0; \x7d"` yields a `PROGRAM` root whose single
child is a `FUNCTION_DECLARATION` with value `main`, whose single child
is a `BLOCK`, whose single child is a `RETURN_STATEMENT` (holding the
return expression `0`). -/
theorem parse_int_main_tree :
    parse (tokenize "int main() \x7b return 0; \x7d".data) 100 =
      .ok (.mk "PROGRAM" []
        [.mk "FUNCTION_DECLARATION" "main".data
          [.mk "BLOCK" []
            [.mk "RETURN_STATEMENT" [] [.mk "EXPRESSION" ['0'] []]]]]) := by
  have h : tokenize "int main() \x7b return 0; \x7d".data =
      [⟨"KEYWORD", "int".data, 1, 1⟩, ⟨"IDENTIFIER", "main".data, 1, 5⟩,
       ⟨"PUNCTUATION", ['('], 1, 9⟩, ⟨"PUNCTUATION", [')'], 1, 10⟩,
       ⟨"PUNCTUATION", ['\x7b'], 1, 12⟩, ⟨"KEYWORD", "return".data, 1, 14⟩,
       ⟨"NUMBER", ['0'], 1, 21⟩, ⟨"PUNCTUATION", [';'], 1, 22⟩,
       ⟨"PUNCTUATION", ['\x7d'], 1, 24⟩] := by
    simp +decide [tokenize, tokenizeAux]
  rw [h]
  rfl

/-- Claim C9: a failed `parseDeclaration` attempt leaves already-consumed
tokens consumed — after `KEYWORD IDENTIFIER` with no following `(` the
cursor ends exactly two positions later; a non-`KEYWORD` start leaves the
cursor unmoved; a `KEYWORD` at the end of input leaves the cursor one
position later. -/
theorem parseDeclaration_frame :
    (∀ ts fuel c t n p, ts[c]? = some t → t.type = "KEYWORD" →
        ts[c + 1]? = some n → n.type = "IDENTIFIER" →
        ts[c + 2]? = some p → ¬p.value = ['('] →
        parseDeclaration ts fuel c = .ok (none, c + 2))
    ∧ (∀ ts fuel c t, ts[c]? = some t → ¬t.type = "KEYWORD" →
        parseDeclaration ts fuel c = .ok (none, c))
    ∧ (∀ ts fuel c t, ts[c]? = some t → t.type = "KEYWORD" → c + 1 = ts.length →
        parseDeclaration ts fuel c = .ok (none, c + 1)) := by
  refine ⟨?_, ?_, ?_⟩
  · intro ts fuel c t n p hc ht hn hnt hp hpv
    exact parseDeclaration_no_paren ts fuel c t n p hc ht hn hnt hp hpv
  · intro ts fuel c t hc ht
    exact parseDeclaration_nk ts fuel c t hc ht
  · intro ts fuel c t hc ht hend
    exact parseDeclaration_kw_end ts fuel c t hc ht hend

/-- Witness for C9: the no-parenthesis case at the concrete sequence
`int x ;` — the cursor lands on position 2 with no node produced. -/
theorem parseDeclaration_frame_witness :
    parseDeclaration [⟨"KEYWORD", "int".data, 1, 1⟩, ⟨"IDENTIFIER", ['x'], 1, 5⟩,
      ⟨"PUNCTUATION", [';'], 1, 6⟩] 5 0 = .ok (none, 0 + 2) :=
  parseDeclaration_frame.1 _ 5 0 ⟨"KEYWORD", "int".data, 1, 1⟩
    ⟨"IDENTIFIER", ['x'], 1, 5⟩ ⟨"PUNCTUATION", [';'], 1, 6⟩
    rfl rfl rfl rfl rfl (by decide)

/-- Claim C10: every parser read of the token sequence happens under the
bounds guard, so the out-of-bounds branch of the option-returning index
is unreachable: the guarded read always succeeds, and no parser entry
point can ever report an out-of-bounds read. -/
theorem parser_reads_in_bounds :
    (∀ ts c, peekG ts c = .ok ts[c]?)
    ∧ (∀ ts fuel c, parseDeclaration ts fuel c ≠ .error .oob)
    ∧ (∀ ts fuel c acc, parseBlockLoop ts fuel c acc ≠ .error .oob)
    ∧ (∀ ts fuel c, parseStatement ts fuel c ≠ .error .oob)
    ∧ (∀ ts fuel, parse ts fuel ≠ .error .oob) := by
  refine ⟨peekG_eq_ok, parseDeclaration_no_oob, ?_, ?_, parse_no_oob⟩
  · intro ts fuel c acc
    exact (parser_no_oob ts fuel).1 c acc
  · intro ts fuel c
    exact (parser_no_oob ts fuel).2.1 c

/-- Witness for C10 at concrete inputs. -/
theorem parser_reads_in_bounds_witness :
    peekG [] 0 = .ok none
    ∧ ¬parse [⟨"KEYWORD", "int".data, 1, 1⟩] 5 = .error .oob := by
  constructor
  · exact parser_reads_in_bounds.1 [] 0
  · exact parser_reads_in_bounds.2.2.2.2 [⟨"KEYWORD", "int".data, 1, 1⟩] 5

/-- Claim C8: re-tokenizing the lexemes of any tokenization, joined in
order with single spaces, reproduces the same sequence of (type, lexeme)
pairs — token positions excluded. -/
theorem tokenize_idempotent (source : List Char) :
    (tokenize (joinLexemes ((tokenize source).map Tok.value))).map kindLex
      = (tokenize source).map kindLex := by
  have hwf : ∀ t ∈ tokenize source, wfTok t = true := tokenizeAux_wf source 1 1
  calc (tokenize (joinLexemes ((tokenize source).map Tok.value))).map kindLex
      = tokensKL (joinLexemes ((tokenize source).map Tok.value)) :=
        tokenizeAux_kindLex _ 1 1
    _ = (tokenize source).map kindLex := retok _ hwf

end Compiler
